import Mathlib

/-
Verification of the chunked parallel aggregation pipeline in src/src/main.rs
(1brc: per-key min/mean/max over a semicolon-delimited text file).

Shallow embedding conventions:
* Rust `String` values (lines, keys, printed output) are modelled as `List Char`
  (`Str`); all inputs of interest are ASCII, where `List Char` equality and
  lexicographic order agree with Rust's byte-wise `String` equality and `Ord`.
* Rust `f64` values are modelled exactly as unreduced fractions `F64`
  (numerator `ℤ`, denominator `ℕ`): every number flowing through the program is
  a finite decimal produced by `parse::<f64>()`, and on such values the
  program's comparisons, additions and the final division are exact, so the
  fraction model agrees with IEEE double arithmetic on all inputs considered
  here.  The semantic value of an `F64` is `F64.val : ℚ`.
* `HashMap<String, Stat>` is modelled as an association list with unique keys;
  the program only uses lookup, insert-or-modify, and the key set, none of
  which depend on the hash iteration order.
* The tokio broadcast channel delivers every batch to every subscribed worker;
  in the unlagged executions modelled by `workerResults` each of the
  `num_threads` workers therefore folds exactly the full batch list, in input
  order.  (The lossy lagging behaviour of the channel is modelled separately
  by `slowWorkerBatches` below.)
* The `handle.await.unwrap().unwrap()` at main.rs:99 panics when a worker
  returned an error; a panic and an `Err` return are both modelled as the
  `Except.error` outcome of the run, which is what the observable claims
  (no report printed, one message on stderr) depend on.
-/

/-- Rust `String` / `&str`, modelled as its character sequence. -/
abbrev Str := List Char

instance {α β : Type} [DecidableEq α] [DecidableEq β] : DecidableEq (Except α β) := fun x y =>
  match x, y with
  | .ok a, .ok b =>
      if h : a = b then isTrue (by rw [h]) else isFalse (fun hh => by cases hh; exact h rfl)
  | .error a, .error b =>
      if h : a = b then isTrue (by rw [h]) else isFalse (fun hh => by cases hh; exact h rfl)
  | .ok _, .error _ => isFalse (fun hh => by cases hh)
  | .error _, .ok _ => isFalse (fun hh => by cases hh)

/-- Exact model of the `f64` values this program computes with: an unreduced
fraction numerator/denominator.  Kept unreduced so that every operation is
kernel-computable. -/
structure F64 where
  num : ℤ
  den : ℕ
deriving DecidableEq

/-- The rational value an `F64` denotes. -/
def F64.val (q : F64) : ℚ := (q.num : ℚ) / (q.den : ℚ)

/-- `0.0`, the value of `f64::default()` used by `Stat::default()`. -/
def F64.zero : F64 := ⟨0, 1⟩

/-- Well-formedness: the denominator is positive (true of every `F64` built by
the parser and preserved by every operation of the program). -/
def F64.wf (q : F64) : Prop := 0 < q.den

/-- Rust `a < b` on `f64`, exact via cross multiplication. -/
def F64.blt (a b : F64) : Bool := decide (a.num * (b.den : ℤ) < b.num * (a.den : ℤ))

/-- Rust `a + b` / `+=` on `f64` (exact on the decimals considered here). -/
def F64.add (a b : F64) : F64 := ⟨a.num * (b.den : ℤ) + b.num * (a.den : ℤ), a.den * b.den⟩

/-- Rust `a / (k as f64)` for a nonnegative integer `k`
(`stat.sum / stat.count as f64` at main.rs:123). -/
def F64.divInt (a : F64) (k : ℤ) : F64 := ⟨a.num, a.den * k.toNat⟩

/-- Decimal digit test, `'0' ≤ c ≤ '9'`. -/
def isDigitCh (c : Char) : Bool := decide ('0' ≤ c) && decide (c ≤ '9')

/-- Whitespace as trimmed by Rust `str::trim` (ASCII fragment). -/
def isWsp (c : Char) : Bool := c = ' ' || c = '\t' || c = '\n' || c = '\r'

/-- Rust `str::trim`: drop whitespace from both ends. -/
def trimStr (s : Str) : Str := ((s.dropWhile isWsp).reverse.dropWhile isWsp).reverse

/-- Numeric value of a digit string (most significant first). -/
def digitsVal (s : Str) : ℕ := s.foldl (fun a c => 10 * a + (c.toNat - 48)) 0

/-- Rust `line.split(';')`: split at every semicolon, keeping empty pieces,
so a line with no separator yields one piece and `"a;b"` yields two. -/
def splitSemi : Str → List Str
  | [] => [[]]
  | c :: rest =>
      if c = ';' then [] :: splitSemi rest
      else
        match splitSemi rest with
        | [] => [[c]]
        | p :: ps => (c :: p) :: ps

/-- Apply an optional leading minus sign to a parsed magnitude. -/
def signVal (neg : Bool) (n : ℕ) : ℤ :=
  if neg then -(n : ℤ) else (n : ℤ)

/-- The digits part of a float literal: integer digits, optional `.` and
fraction digits, nothing else. -/
def parseAfterSign (neg : Bool) (rest : Str) : Option F64 :=
  match rest.dropWhile isDigitCh with
  | [] =>
      if (rest.takeWhile isDigitCh).isEmpty then none
      else some ⟨signVal neg (digitsVal (rest.takeWhile isDigitCh)), 1⟩
  | '.' :: frac =>
      if frac.all isDigitCh && !((rest.takeWhile isDigitCh).isEmpty && frac.isEmpty) then
        some ⟨signVal neg
                (digitsVal (rest.takeWhile isDigitCh) * 10 ^ frac.length + digitsVal frac),
              10 ^ frac.length⟩
      else none
  | _ => none

/-- Rust `str::parse::<f64>()` on the finite-decimal literals this program
feeds it: optional sign, integer digits, optional fraction digits, nothing
else.  (Exponent, `inf` and `nan` forms never arise in the inputs considered
and are modelled as parse failures.)  Returns the exact value. -/
def parseF64 (s : Str) : Option F64 :=
  match s with
  | '-' :: r => parseAfterSign true r
  | '+' :: r => parseAfterSign false r
  | r => parseAfterSign false r

/-- The `Stat` struct of main.rs:7-13. -/
structure Stat where
  min : F64
  max : F64
  sum : F64
  count : ℤ
deriving DecidableEq

/-- `Stat::new(value)` (main.rs:16-23). -/
def Stat.new (v : F64) : Stat := ⟨v, v, v, 1⟩

/-- `Stat::default()` (derived `Default`, all fields zero) — the fresh
accumulator the reducer starts from at main.rs:106. -/
def Stat.dflt : Stat := ⟨F64.zero, F64.zero, F64.zero, 0⟩

/-- The `and_modify` closure of main.rs:157-166: fold one more value into an
existing `Stat`. -/
def statUpdate (st : Stat) (v : F64) : Stat :=
  { min := if F64.blt v st.min then v else st.min
    max := if F64.blt st.max v then v else st.max
    sum := F64.add st.sum v
    count := st.count + 1 }

/-- The `ThreadData` struct (main.rs:26-29); the `HashMap` is modelled as an
association list with unique keys. -/
structure ThreadData where
  stat : List (Str × Stat)
deriving DecidableEq

/-- `ThreadData::default()`. -/
def emptyData : ThreadData := ⟨[]⟩

/-- `HashMap::get` on the association-list model. -/
def lookupStat : List (Str × Stat) → Str → Option Stat
  | [], _ => none
  | (k', s) :: rest, k => if k' = k then some s else lookupStat rest k

/-- `data.stat.entry(city).and_modify(..).or_insert(Stat::new(value))`
(main.rs:155-167). -/
def mapUpdate : List (Str × Stat) → Str → F64 → List (Str × Stat)
  | [], k, v => [(k, Stat.new v)]
  | (k', s) :: rest, k, v =>
      if k' = k then (k', statUpdate s v) :: rest
      else (k', s) :: mapUpdate rest k v

/-- One iteration of the `for line in chunk` loop of `process_chunk`
(main.rs:148-168): lines that do not split into exactly two fields are
skipped; a second field that fails to parse (after trimming) aborts with the
parse error; otherwise the value is folded into the map. -/
def processLine (d : ThreadData) (line : Str) : Except Str ThreadData :=
  match splitSemi line with
  | [city, valStr] =>
      match parseF64 (trimStr valStr) with
      | none => .error "invalid float literal".data
      | some v => .ok ⟨mapUpdate d.stat city v⟩
  | _ => .ok d

/-- `process_chunk` (main.rs:136-171): fold the lines of one chunk in order,
stopping at the first error. -/
def process_chunk (d : ThreadData) : List Str → Except Str ThreadData
  | [] => .ok d
  | line :: rest =>
      match processLine d line with
      | .error e => .error e
      | .ok d' => process_chunk d' rest

/-- The read loop of `read_file_in_chunks` (main.rs:72-90): accumulate lines
into a buffer, publish a batch whenever the buffer reaches the chunk size,
and publish any nonempty remainder at end of stream.  First argument is the
chunk size, second the current buffer, third the remaining line stream; the
result is the sequence of published batches, in publication order. -/
def readBatches (chunkSize : ℕ) : List Str → List Str → List (List Str)
  | buf, [] => if buf.isEmpty then [] else [buf]
  | buf, line :: rest =>
      if chunkSize ≤ (buf ++ [line]).length then
        (buf ++ [line]) :: readBatches chunkSize [] rest
      else readBatches chunkSize (buf ++ [line]) rest

/-- The batches published for a given input, starting from an empty buffer. -/
def batches (chunkSize : ℕ) (lines : List Str) : List (List Str) :=
  readBatches chunkSize [] lines

/-- The worker loop body (main.rs:59-67) after its aggregate reached `d`:
process each remaining received batch in order, returning the first error. -/
def runWorkerAux (d : ThreadData) : List (List Str) → Except Str ThreadData
  | [] => .ok d
  | b :: rest =>
      match process_chunk d b with
      | .error e => .error e
      | .ok d' => runWorkerAux d' rest

/-- One worker task (main.rs:59-67): every subscriber of the broadcast channel
receives every published batch (in publication order) in an unlagged
execution, so a worker folds exactly the full batch list from an empty
aggregate. -/
def runWorker (bs : List (List Str)) : Except Str ThreadData :=
  runWorkerAux emptyData bs

/-- The spawn-and-join of `num_threads` identical workers
(main.rs:56-69 and 96-102).  The join loop `handle.await.unwrap().unwrap()`
panics at the first worker that returned an error, which is modelled as the
error outcome. -/
def workerResults (bs : List (List Str)) : ℕ → Except Str (List ThreadData)
  | 0 => .ok []
  | n + 1 =>
      match runWorker bs with
      | .error e => .error e
      | .ok d =>
          match workerResults bs n with
          | .error e => .error e
          | .ok ds => .ok (d :: ds)

/-- The `HashSet` union of all workers' key sets (main.rs:97-101); the order
is irrelevant because the keys are sorted before reporting. -/
def allKeys (ds : List ThreadData) : List Str :=
  (ds.flatMap (fun d => d.stat.map Prod.fst)).dedup

/-- Lexicographic order on character sequences — the order `BTreeMap<String, _>`
iterates its keys in (byte-wise for the ASCII inputs considered). -/
def strLe : Str → Str → Bool
  | [], _ => true
  | _ :: _, [] => false
  | a :: as, b :: bs => if a < b then true else if b < a then false else strLe as bs

/-- Insert into a `strLe`-sorted list, keeping it sorted. -/
def insertSorted (x : Str) : List Str → List Str
  | [] => [x]
  | y :: ys => if strLe x y then x :: y :: ys else y :: insertSorted x ys

/-- Sort keys the way `BTreeMap` iteration does. -/
def sortKeys : List Str → List Str
  | [] => []
  | x :: xs => insertSorted x (sortKeys xs)

/-- One step of the reducer's fold over workers for a fixed key
(main.rs:107-117): absent keys contribute nothing, present `Stat`s are folded
into the accumulator with the min/max/sum/count rules. -/
def mergeStep (acc : Stat) : Option Stat → Stat
  | none => acc
  | some s =>
      { min := if F64.blt s.min acc.min then s.min else acc.min
        max := if F64.blt acc.max s.max then s.max else acc.max
        sum := F64.add acc.sum s.sum
        count := acc.count + s.count }

/-- The reducer's fold over the worker list for one key, from a given
accumulator. -/
def mergeKeyAux (k : Str) (acc : Stat) : List ThreadData → Stat
  | [] => acc
  | d :: ds => mergeKeyAux k (mergeStep acc (lookupStat d.stat k)) ds

/-- The merged `Stat` for one key (main.rs:106-118): fold every worker's entry
for the key into a fresh `Stat::default()` accumulator. -/
def mergeKey (ds : List ThreadData) (k : Str) : Stat :=
  mergeKeyAux k Stat.dflt ds

/-- Decimal digits of a positive number (fuel-based so it kernel-reduces). -/
def natDigitsAux : ℕ → ℕ → Str
  | 0, _ => []
  | _ + 1, 0 => []
  | fuel + 1, n => natDigitsAux fuel (n / 10) ++ [Char.ofNat (48 + n % 10)]

/-- Decimal rendering of a natural number. -/
def natToStr (n : ℕ) : Str :=
  if n = 0 then ['0'] else natDigitsAux (n + 1) n

/-- The value in tenths, rounded to the nearest integer with ties to even —
the rounding Rust's one-decimal float formatting performs. -/
def roundDecis (q : F64) : ℤ :=
  let x := 10 * q.num
  let d : ℤ := (q.den : ℤ)
  let fl := x.ediv d
  let r := x.emod d
  if 2 * r < d then fl
  else if d < 2 * r then fl + 1
  else if fl % 2 = 0 then fl else fl + 1

/-- Print a number of tenths with exactly one digit after the decimal point. -/
def fmt1n (n : ℤ) : Str :=
  (if n < 0 then ['-'] else []) ++ natToStr (n.natAbs / 10) ++ ['.'] ++
    [Char.ofNat (48 + n.natAbs % 10)]

/-- Rust `format!` with one decimal digit (the `:.1` format used by
`StatResult`'s `Display` at main.rs:39): round the value to the nearest tenth,
ties to even, and print it with exactly one digit after the point.  (For a
negative value rounding to zero Rust would print `-0.0`; that case never
arises for the exact one-decimal values this program prints.) -/
def fmt1 (q : F64) : Str := fmt1n (roundDecis q)

/-- The `StatResult` struct (main.rs:31-35). -/
structure StatResult where
  min : F64
  max : F64
  mean : F64

/-- `StatResult`'s `Display` implementation (main.rs:37-41). -/
def StatResult.fmtDisplay (r : StatResult) : Str :=
  fmt1 r.min ++ "/".data ++ fmt1 r.mean ++ "/".data ++ fmt1 r.max

/-- The sorted merged result (the `BTreeMap` built at main.rs:104-126):
for each key in the union, the merged min/max and the mean computed once,
at merge time, as merged sum over merged count. -/
def mergedResult (ds : List ThreadData) : List (Str × StatResult) :=
  (sortKeys (allKeys ds)).map (fun k =>
    let st := mergeKey ds k
    (k, ⟨st.min, st.max, F64.divInt st.sum st.count⟩))

/-- Join pieces with a separator (`Vec::join` at main.rs:131). -/
def strJoin (sep : Str) : List Str → Str
  | [] => []
  | s :: rest =>
      match rest with
      | [] => s
      | _ :: _ => s ++ sep ++ strJoin sep rest

/-- The `Processed <N> lines total` line (main.rs:130). -/
def countLine (n : ℕ) : Str :=
  "Processed ".data ++ natToStr n ++ " lines total".data

/-- The merged-result report line (main.rs:128-131), braces around the
`, `-joined `key=min/mean/max` entries. -/
def reportLine (ds : List ThreadData) : Str :=
  [Char.ofNat 123] ++
    strJoin ", ".data ((mergedResult ds).map (fun p => p.1 ++ "=".data ++ p.2.fmtDisplay)) ++
    [Char.ofNat 125]

/-- The failure modes of a run: the file failed to open (main.rs:49), or a
worker returned an error and the join's `unwrap` panicked (main.rs:99). -/
inductive RunError where
  | openFailed : RunError
  | workerPanic : Str → RunError
deriving DecidableEq

/-- `read_file_in_chunks` (main.rs:43-133) as a function from the open result
(`none` = the file could not be opened) and the configuration to either a
failure or the list of lines it prints to stdout. -/
def read_file_in_chunks (openResult : Option (List Str)) (chunkSize numThreads : ℕ) :
    Except RunError (List Str) :=
  match openResult with
  | none => .error .openFailed
  | some lines =>
      match workerResults (batches chunkSize lines) numThreads with
      | .error e => .error (.workerPanic e)
      | .ok ds => .ok [countLine lines.length, reportLine ds]

/-- What a run writes to stdout and to stderr. -/
structure RunOutput where
  stdoutLines : List Str
  stderrLines : List Str
deriving DecidableEq

/-- `main` (main.rs:173-184): print the report and a confirmation on success;
print one message to stderr and nothing to stdout on an open failure (the
`Err` arm) or on a worker error (the panic escaping through `main`). -/
def mainRun (openResult : Option (List Str)) (chunkSize numThreads : ℕ) : RunOutput :=
  match read_file_in_chunks openResult chunkSize numThreads with
  | .ok out => ⟨out ++ ["File processed successfully".data], []⟩
  | .error .openFailed =>
      ⟨[], ["Error reading file: No such file or directory (os error 2)".data]⟩
  | .error (.workerPanic e) => ⟨[], ["thread panicked: ".data ++ e]⟩

/-- The broadcast channel capacity chosen at main.rs:53. -/
def channelCapacity : ℕ := 16

/-- Modelled from the documented semantics of `tokio::sync::broadcast`
(the channel created at main.rs:53): the channel retains only the most recent
`cap` values; a receiver that has fallen more than `cap` values behind gets a
`Lagged` error from `recv`, and the overwritten values are lost to it.  The
worker loop `while let Ok(chunk) = rx2.recv().await` (main.rs:62) exits on the
first non-`Ok` result, so a worker whose first poll happens after `sent`
batches were already published processes all `sent` batches if `sent ≤ cap`,
and processes none at all if `sent > cap` (its first `recv` yields `Lagged`
and the loop ends).  The result lists the indices of the batches the worker
actually processes. -/
def slowWorkerBatches (cap sent : ℕ) : List ℕ :=
  if sent ≤ cap then List.range sent else []

/-- The (key, value) record a line denotes, when it splits into exactly two
fields and the value parses — the successful case of the parser contract. -/
def lineRecord (line : Str) : Option (Str × F64) :=
  match splitSemi line with
  | [city, valStr] =>
      match parseF64 (trimStr valStr) with
      | some v => some (city, v)
      | none => none
  | _ => none

/-- The multiset (in input order) of values the parser accepts for key `k`
among the given lines — the claims' "values observed for that key". -/
def observedValues (k : Str) : List Str → List F64
  | [] => []
  | line :: rest =>
      match lineRecord line with
      | some (city, v) => (if city = k then [v] else []) ++ observedValues k rest
      | none => observedValues k rest

/-- A `Stat` correctly summarizes a list of observed values: its min and max
bound every value, its sum is their exact sum and its count their number. -/
def statAbsorbs (st : Stat) (vs : List F64) : Prop :=
  (∀ v ∈ vs, st.min.val ≤ v.val ∧ v.val ≤ st.max.val) ∧
    st.sum.val = (vs.map F64.val).sum ∧ st.count = vs.length

/-- All fraction fields of a `Stat` have positive denominators. -/
def statWf (st : Stat) : Prop := st.min.wf ∧ st.max.wf ∧ st.sum.wf

/-- The per-key fold a worker's map performs, viewed per key: `none` means the
key was never seen. -/
def foldStat : Option Stat → List F64 → Option Stat
  | o, [] => o
  | o, v :: vs =>
      match o with
      | none => foldStat (some (Stat.new v)) vs
      | some st => foldStat (some (statUpdate st v)) vs

/-- The three-line scenario input of the spec's test list. -/
def scenarioLines : List Str :=
  ["Tokyo;10.0".data, "Tokyo;20.0".data, "Oslo;-5.0".data]

/-! ### Semantics of the `F64` fraction model -/

theorem F64.zero_wf : F64.zero.wf := by
  simp [F64.zero, F64.wf]

theorem F64.zero_val : F64.zero.val = 0 := by
  simp [F64.zero, F64.val]

theorem F64.add_wf {a b : F64} (ha : a.wf) (hb : b.wf) : (F64.add a b).wf := by
  simp only [F64.wf, F64.add] at *
  exact Nat.mul_pos ha hb

theorem F64.val_add {a b : F64} (ha : a.wf) (hb : b.wf) :
    (F64.add a b).val = a.val + b.val := by
  simp only [F64.wf] at ha hb
  have ha' : ((a.den : ℚ)) ≠ 0 := by positivity
  have hb' : ((b.den : ℚ)) ≠ 0 := by positivity
  simp only [F64.add, F64.val]
  push_cast
  field_simp

theorem F64.blt_iff {a b : F64} (ha : a.wf) (hb : b.wf) :
    F64.blt a b = true ↔ a.val < b.val := by
  simp only [F64.wf] at ha hb
  have ha' : (0 : ℚ) < (a.den : ℚ) := by positivity
  have hb' : (0 : ℚ) < (b.den : ℚ) := by positivity
  simp only [F64.blt, decide_eq_true_eq, F64.val]
  rw [div_lt_div_iff₀ ha' hb']
  constructor
  · intro h
    exact_mod_cast h
  · intro h
    exact_mod_cast h

theorem F64.divInt_val (a : F64) (k : ℤ) :
    (F64.divInt a k).val = a.val / ((k.toNat : ℕ) : ℚ) := by
  simp only [F64.divInt, F64.val]
  push_cast
  rw [div_div]

theorem parseAfterSign_wf {neg : Bool} {rest : Str} {v : F64}
    (h : parseAfterSign neg rest = some v) : v.wf := by
  unfold parseAfterSign at h
  split at h
  · split at h
    · exact absurd h (by simp)
    · simp only [Option.some.injEq] at h
      subst h
      exact Nat.one_pos
  · split at h
    · simp only [Option.some.injEq] at h
      subst h
      show 0 < 10 ^ _
      positivity
    · exact absurd h (by simp)
  · exact absurd h (by simp)

theorem parseF64_wf {s : Str} {v : F64} (h : parseF64 s = some v) : v.wf := by
  unfold parseF64 at h
  split at h <;> exact parseAfterSign_wf h

/-! ### Shape equations for per-line processing -/

theorem processLine_not2 (d : ThreadData) (line : Str)
    (h : (splitSemi line).length ≠ 2) : processLine d line = .ok d := by
  rcases hsp : splitSemi line with _ | ⟨c1, _ | ⟨c2, _ | _⟩⟩
  · unfold processLine; rw [hsp]
  · unfold processLine; rw [hsp]
  · exact absurd (by rw [hsp]; rfl) h
  · unfold processLine; rw [hsp]

theorem processLine_parse_none (d : ThreadData) {line city valStr : Str}
    (hsp : splitSemi line = [city, valStr]) (hp : parseF64 (trimStr valStr) = none) :
    processLine d line = .error "invalid float literal".data := by
  unfold processLine
  rw [hsp]
  show (match parseF64 (trimStr valStr) with
    | none => (.error "invalid float literal".data : Except Str ThreadData)
    | some v => .ok ⟨mapUpdate d.stat city v⟩) = _
  rw [hp]

theorem processLine_parse_some (d : ThreadData) {line city valStr : Str} {v : F64}
    (hsp : splitSemi line = [city, valStr]) (hp : parseF64 (trimStr valStr) = some v) :
    processLine d line = .ok ⟨mapUpdate d.stat city v⟩ := by
  unfold processLine
  rw [hsp]
  show (match parseF64 (trimStr valStr) with
    | none => (.error "invalid float literal".data : Except Str ThreadData)
    | some v => .ok ⟨mapUpdate d.stat city v⟩) = _
  rw [hp]

theorem lineRecord_not2 {line : Str} (h : (splitSemi line).length ≠ 2) :
    lineRecord line = none := by
  rcases hsp : splitSemi line with _ | ⟨c1, _ | ⟨c2, _ | _⟩⟩
  · unfold lineRecord; rw [hsp]
  · unfold lineRecord; rw [hsp]
  · exact absurd (by rw [hsp]; rfl) h
  · unfold lineRecord; rw [hsp]

theorem lineRecord_parse_none {line city valStr : Str}
    (hsp : splitSemi line = [city, valStr]) (hp : parseF64 (trimStr valStr) = none) :
    lineRecord line = none := by
  unfold lineRecord
  rw [hsp]
  show (match parseF64 (trimStr valStr) with
    | some v => some (city, v)
    | none => none) = _
  rw [hp]

theorem lineRecord_parse_some {line city valStr : Str} {v : F64}
    (hsp : splitSemi line = [city, valStr]) (hp : parseF64 (trimStr valStr) = some v) :
    lineRecord line = some (city, v) := by
  unfold lineRecord
  rw [hsp]
  show (match parseF64 (trimStr valStr) with
    | some v => some (city, v)
    | none => none) = _
  rw [hp]

theorem lineRecord_some_inv {line city : Str} {v : F64}
    (h : lineRecord line = some (city, v)) :
    ∃ valStr, splitSemi line = [city, valStr] ∧ parseF64 (trimStr valStr) = some v := by
  rcases hsp : splitSemi line with _ | ⟨c1, _ | ⟨c2, _ | _⟩⟩
  · rw [lineRecord_not2 (by rw [hsp]; simp)] at h
    exact absurd h (by simp)
  · rw [lineRecord_not2 (by rw [hsp]; simp)] at h
    exact absurd h (by simp)
  · rcases hp : parseF64 (trimStr c2) with _ | u
    · rw [lineRecord_parse_none hsp hp] at h
      exact absurd h (by simp)
    · rw [lineRecord_parse_some hsp hp] at h
      simp only [Option.some.injEq, Prod.mk.injEq] at h
      obtain ⟨rfl, rfl⟩ := h
      exact ⟨c2, rfl, hp⟩
  · rw [lineRecord_not2 (by rw [hsp]; simp)] at h
    exact absurd h (by simp)

theorem observedValues_cons (k line : Str) (rest : List Str) :
    observedValues k (line :: rest) =
      match lineRecord line with
      | some (city, v) => (if city = k then [v] else []) ++ observedValues k rest
      | none => observedValues k rest := rfl

theorem observedValues_wf (k : Str) :
    ∀ lines, ∀ v ∈ observedValues k lines, v.wf := by
  intro lines
  induction lines with
  | nil => intro v hv; simp [observedValues] at hv
  | cons line rest ih =>
    intro v hv
    rw [observedValues_cons] at hv
    rcases hlr : lineRecord line with _ | ⟨city, w⟩ <;> rw [hlr] at hv
    · exact ih v hv
    · rcases List.mem_append.mp hv with hv' | hv'
      · rcases (by split at hv' <;> simp_all : v = w) with rfl
        obtain ⟨valStr, _, hp⟩ := lineRecord_some_inv hlr
        exact parseF64_wf hp
      · exact ih v hv'

/-! ### The lexicographic key order used by the report -/

theorem strLe_total (a : Str) : ∀ b, strLe a b = true ∨ strLe b a = true := by
  induction a with
  | nil => intro b; left; simp [strLe]
  | cons x xs ih =>
    intro b
    cases b with
    | nil => right; simp [strLe]
    | cons y ys =>
      simp only [strLe]
      rcases lt_trichotomy x y with h | h | h
      · left; simp [h]
      · subst h
        simpa [lt_irrefl] using ih ys
      · right; simp [h]

theorem strLe_trans (a : Str) : ∀ b c, strLe a b = true → strLe b c = true →
    strLe a c = true := by
  induction a with
  | nil => intro b c _ _; simp [strLe]
  | cons x xs ih =>
    intro b c hab hbc
    cases b with
    | nil => simp [strLe] at hab
    | cons y ys =>
      cases c with
      | nil => simp [strLe] at hbc
      | cons z zs =>
        simp only [strLe] at hab hbc ⊢
        by_cases hxy : x < y
        · by_cases hyz : y < z
          · simp [lt_trans hxy hyz]
          · by_cases hzy : z < y
            · simp [hyz, hzy] at hbc
            · have : y = z := le_antisymm (not_lt.mp hzy) (not_lt.mp hyz)
              subst this
              simp [hxy]
        · by_cases hyx : y < x
          · simp [hxy, hyx] at hab
          · have hxy' : x = y := le_antisymm (not_lt.mp hyx) (not_lt.mp hxy)
            subst hxy'
            simp only [lt_irrefl, if_false] at hab
            by_cases hxz : x < z
            · simp [hxz]
            · by_cases hzx : z < x
              · simp [hxz, hzx] at hbc
              · simp only [lt_irrefl, if_false, hxz, hzx] at hbc ⊢
                exact ih ys zs hab hbc

theorem mem_insertSorted (x z : Str) :
    ∀ l, z ∈ insertSorted x l → z = x ∨ z ∈ l := by
  intro l
  induction l with
  | nil => simp [insertSorted]
  | cons y ys ih =>
    simp only [insertSorted]
    split
    · intro h
      simpa using List.mem_cons.mp h
    · intro h
      rcases List.mem_cons.mp h with rfl | h'
      · right; exact List.mem_cons_self _ _
      · rcases ih h' with h'' | h''
        · left; exact h''
        · right; exact List.mem_cons_of_mem _ h''

theorem sorted_insertSorted (x : Str) :
    ∀ l, List.Sorted (fun a b : Str => strLe a b = true) l →
      List.Sorted (fun a b : Str => strLe a b = true) (insertSorted x l) := by
  intro l
  induction l with
  | nil => intro _; simp [insertSorted]
  | cons y ys ih =>
    intro hs
    rw [List.sorted_cons] at hs
    obtain ⟨hy, hys⟩ := hs
    simp only [insertSorted]
    by_cases hxy : strLe x y = true
    · rw [if_pos hxy]
      rw [List.sorted_cons]
      refine ⟨?_, ?_⟩
      · intro b hb
        rcases List.mem_cons.mp hb with rfl | hb'
        · exact hxy
        · exact strLe_trans x y b hxy (hy b hb')
      · rw [List.sorted_cons]
        exact ⟨hy, hys⟩
    · rw [if_neg hxy]
      rw [List.sorted_cons]
      refine ⟨?_, ih hys⟩
      intro b hb
      rcases mem_insertSorted x b ys hb with rfl | hb'
      · rcases strLe_total b y with h | h
        · exact absurd h hxy
        · exact h
      · exact hy b hb'

theorem sorted_sortKeys (l : List Str) :
    List.Sorted (fun a b : Str => strLe a b = true) (sortKeys l) := by
  induction l with
  | nil => simp [sortKeys]
  | cons x xs ih => exact sorted_insertSorted x (sortKeys xs) ih

/-! ### Per-key behaviour of the worker's map -/

theorem lookup_mapUpdate_self (k : Str) (v : F64) :
    ∀ m, lookupStat (mapUpdate m k v) k =
      some (match lookupStat m k with
        | none => Stat.new v
        | some st => statUpdate st v) := by
  intro m
  induction m with
  | nil => simp [mapUpdate, lookupStat]
  | cons p rest ih =>
    obtain ⟨k', s⟩ := p
    by_cases hk : k' = k
    · subst hk
      simp [mapUpdate, lookupStat]
    · simp only [mapUpdate, lookupStat, if_neg hk]
      exact ih

theorem lookup_mapUpdate_ne (k k' : Str) (v : F64) (hne : k' ≠ k) :
    ∀ m, lookupStat (mapUpdate m k v) k' = lookupStat m k' := by
  intro m
  have hkk : ¬(k = k') := fun h => hne h.symm
  induction m with
  | nil =>
    show (if k = k' then some (Stat.new v) else lookupStat [] k') = none
    rw [if_neg hkk]
    rfl
  | cons p rest ih =>
    obtain ⟨k₀, s⟩ := p
    by_cases hk : k₀ = k
    · subst hk
      simp [mapUpdate, lookupStat, hkk]
    · simp only [mapUpdate, if_neg hk, lookupStat]
      split
      · rfl
      · exact ih

theorem lookup_of_mem_keys (k : Str) :
    ∀ m : List (Str × Stat), k ∈ m.map Prod.fst → ∃ st, lookupStat m k = some st := by
  intro m
  induction m with
  | nil => intro hk; simp at hk
  | cons p rest ih =>
    obtain ⟨k₀, s⟩ := p
    intro hk
    by_cases h : k₀ = k
    · subst h
      exact ⟨s, by simp [lookupStat]⟩
    · simp only [lookupStat, if_neg h]
      apply ih
      rcases List.mem_cons.mp hk with h' | h'
      · exact absurd h'.symm h
      · exact h'

theorem mem_keys_of_lookup (k : Str) :
    ∀ m : List (Str × Stat), ∀ st, lookupStat m k = some st → k ∈ m.map Prod.fst := by
  intro m
  induction m with
  | nil => intro st h; simp [lookupStat] at h
  | cons p rest ih =>
    obtain ⟨k₀, s⟩ := p
    intro st h
    by_cases hk : k₀ = k
    · subst hk
      simp only [List.map_cons]
      exact List.mem_cons_self _ _
    · simp only [lookupStat, if_neg hk] at h
      simp only [List.map_cons, List.mem_cons]
      exact Or.inr (ih st h)

/-- Per-key view of one successful chunk fold: afterwards, the entry for any
key is the `foldStat` of its previous entry over the values observed for that
key in the chunk. -/
theorem process_chunk_lookup :
    ∀ (chunk : List Str) (d d' : ThreadData),
      process_chunk d chunk = .ok d' →
      ∀ k, lookupStat d'.stat k = foldStat (lookupStat d.stat k) (observedValues k chunk) := by
  intro chunk
  induction chunk with
  | nil =>
    intro d d' h k
    simp only [process_chunk] at h
    cases h
    rfl
  | cons line rest ih =>
    intro d d' h k
    simp only [process_chunk] at h
    rcases hpl : processLine d line with e | d₁ <;> rw [hpl] at h
    · cases h
    · rw [observedValues_cons]
      rcases hsh : splitSemi line with _ | ⟨c1, _ | ⟨c2, _ | _⟩⟩
      · rw [lineRecord_not2 (by rw [hsh]; simp)]
        rw [processLine_not2 d line (by rw [hsh]; simp)] at hpl
        cases hpl
        exact ih d d' h k
      · rw [lineRecord_not2 (by rw [hsh]; simp)]
        rw [processLine_not2 d line (by rw [hsh]; simp)] at hpl
        cases hpl
        exact ih d d' h k
      · rcases hp : parseF64 (trimStr c2) with _ | v
        · rw [processLine_parse_none d hsh hp] at hpl
          cases hpl
        · rw [lineRecord_parse_some hsh hp]
          rw [processLine_parse_some d hsh hp] at hpl
          cases hpl
          by_cases hck : c1 = k
          · subst hck
            simp only [if_pos rfl, List.singleton_append]
            have h1 := ih ⟨mapUpdate d.stat c1 v⟩ d' h c1
            rw [h1]
            show foldStat (lookupStat (mapUpdate d.stat c1 v) c1) _ = _
            rw [lookup_mapUpdate_self]
            rcases hl : lookupStat d.stat c1 with _ | st <;> rfl
          · simp only [if_neg hck, List.nil_append]
            have h1 := ih ⟨mapUpdate d.stat c1 v⟩ d' h k
            rw [h1]
            show foldStat (lookupStat (mapUpdate d.stat c1 v) k) _ = _
            rw [lookup_mapUpdate_ne c1 k v (fun hh => hck hh.symm)]
      · rw [lineRecord_not2 (by rw [hsh]; simp)]
        rw [processLine_not2 d line (by rw [hsh]; simp)] at hpl
        cases hpl
        exact ih d d' h k

/-! ### The fold a worker performs for one key -/

theorem statUpdate_min_le {st : Stat} {v : F64} (hm : st.min.wf) (hv : v.wf) :
    (statUpdate st v).min.val ≤ st.min.val ∧ (statUpdate st v).min.val ≤ v.val ∧
      (statUpdate st v).min.wf := by
  show (if F64.blt v st.min then v else st.min).val ≤ _ ∧
    (if F64.blt v st.min then v else st.min).val ≤ _ ∧ (if F64.blt v st.min then v else st.min).wf
  by_cases hb : F64.blt v st.min = true
  · rw [if_pos hb]
    have := (F64.blt_iff hv hm).mp hb
    exact ⟨le_of_lt this, le_refl _, hv⟩
  · rw [if_neg hb]
    have : ¬(v.val < st.min.val) := fun hc => hb ((F64.blt_iff hv hm).mpr hc)
    exact ⟨le_refl _, not_lt.mp this, hm⟩

theorem statUpdate_max_ge {st : Stat} {v : F64} (hm : st.max.wf) (hv : v.wf) :
    st.max.val ≤ (statUpdate st v).max.val ∧ v.val ≤ (statUpdate st v).max.val ∧
      (statUpdate st v).max.wf := by
  show _ ≤ (if F64.blt st.max v then v else st.max).val ∧
    _ ≤ (if F64.blt st.max v then v else st.max).val ∧ (if F64.blt st.max v then v else st.max).wf
  by_cases hb : F64.blt st.max v = true
  · rw [if_pos hb]
    have := (F64.blt_iff hm hv).mp hb
    exact ⟨le_of_lt this, le_refl _, hv⟩
  · rw [if_neg hb]
    have : ¬(st.max.val < v.val) := fun hc => hb ((F64.blt_iff hm hv).mpr hc)
    exact ⟨le_refl _, not_lt.mp this, hm⟩

theorem foldStat_some_spec :
    ∀ (vs : List F64) (st₀ st : Stat),
      statWf st₀ → (∀ v ∈ vs, v.wf) →
      foldStat (some st₀) vs = some st →
      statWf st ∧
      st.min.val ≤ st₀.min.val ∧ st₀.max.val ≤ st.max.val ∧
      (∀ v ∈ vs, st.min.val ≤ v.val ∧ v.val ≤ st.max.val) ∧
      st.sum.val = st₀.sum.val + (vs.map F64.val).sum ∧
      st.count = st₀.count + vs.length := by
  intro vs
  induction vs with
  | nil =>
    intro st₀ st hwf _ h
    rcases (by simpa [foldStat] using h : st₀ = st) with rfl
    refine ⟨hwf, le_refl _, le_refl _, by simp, by simp, by simp⟩
  | cons v vs ih =>
    intro st₀ st hwf hvs h
    obtain ⟨hmin, hmax, hsum⟩ := hwf
    have hv : v.wf := hvs v (List.mem_cons_self _ _)
    have hvs' : ∀ w ∈ vs, w.wf := fun w hw => hvs w (List.mem_cons_of_mem _ hw)
    have h' : foldStat (some (statUpdate st₀ v)) vs = some st := h
    obtain ⟨hm1, hm2, hm3⟩ := statUpdate_min_le hmin hv
    obtain ⟨hx1, hx2, hx3⟩ := statUpdate_max_ge hmax hv
    have hupwf : statWf (statUpdate st₀ v) := ⟨hm3, hx3, F64.add_wf hsum hv⟩
    obtain ⟨hwf', hmin', hmax', hbound', hsum', hcount'⟩ := ih (statUpdate st₀ v) st hupwf hvs' h'
    refine ⟨hwf', le_trans hmin' hm1, le_trans hx1 hmax', ?_, ?_, ?_⟩
    · intro w hw
      rcases List.mem_cons.mp hw with rfl | hw'
      · exact ⟨le_trans hmin' hm2, le_trans hx2 hmax'⟩
      · exact hbound' w hw'
    · have : (statUpdate st₀ v).sum.val = st₀.sum.val + v.val := F64.val_add hsum hv
      rw [hsum', this]
      simp only [List.map_cons, List.sum_cons]
      ring
    · have : (statUpdate st₀ v).count = st₀.count + 1 := rfl
      rw [hcount', this]
      simp only [List.length_cons]
      push_cast
      ring

theorem foldStat_some_ne_none :
    ∀ (vs : List F64) (st₀ : Stat), foldStat (some st₀) vs ≠ none := by
  intro vs
  induction vs with
  | nil => intro st₀ h; simp [foldStat] at h
  | cons v vs ih => intro st₀ h; exact ih (statUpdate st₀ v) h

theorem foldStat_none_spec {vs : List F64} {st : Stat}
    (hvs : ∀ v ∈ vs, v.wf) (h : foldStat none vs = some st) :
    statWf st ∧ statAbsorbs st vs ∧ 1 ≤ st.count := by
  cases vs with
  | nil => simp [foldStat] at h
  | cons v vs =>
    have hv : v.wf := hvs v (List.mem_cons_self _ _)
    have hvs' : ∀ w ∈ vs, w.wf := fun w hw => hvs w (List.mem_cons_of_mem _ hw)
    have h' : foldStat (some (Stat.new v)) vs = some st := h
    have hnewwf : statWf (Stat.new v) := ⟨hv, hv, hv⟩
    obtain ⟨hwf, hmin, hmax, hbound, hsum, hcount⟩ :=
      foldStat_some_spec vs (Stat.new v) st hnewwf hvs' h'
    have hnc : (Stat.new v).count = 1 := rfl
    refine ⟨hwf, ⟨?_, ?_, ?_⟩, ?_⟩
    · intro w hw
      rcases List.mem_cons.mp hw with rfl | hw'
      · exact ⟨hmin, hmax⟩
      · exact hbound w hw'
    · rw [hsum]
      show (Stat.new v).sum.val + _ = _
      simp only [Stat.new, List.map_cons, List.sum_cons]
    · rw [hcount, hnc]
      simp only [List.length_cons]
      push_cast
      ring
    · rw [hcount, hnc]
      have : (0 : ℤ) ≤ vs.length := by positivity
      omega

/-! ### Composition of chunk processing; the worker loop -/

theorem process_chunk_cons (d : ThreadData) (x : Str) (t : List Str) :
    process_chunk d (x :: t) =
      match processLine d x with
      | .error e => .error e
      | .ok d' => process_chunk d' t := rfl

theorem runWorkerAux_cons (d : ThreadData) (b : List Str) (bs : List (List Str)) :
    runWorkerAux d (b :: bs) =
      match process_chunk d b with
      | .error e => .error e
      | .ok d' => runWorkerAux d' bs := rfl

theorem workerResults_succ (bs : List (List Str)) (n : ℕ) :
    workerResults bs (n + 1) =
      match runWorker bs with
      | .error e => .error e
      | .ok d =>
          match workerResults bs n with
          | .error e => .error e
          | .ok ds => .ok (d :: ds) := rfl

theorem process_chunk_append :
    ∀ (xs ys : List Str) (d : ThreadData),
      process_chunk d (xs ++ ys) =
        match process_chunk d xs with
        | .error e => .error e
        | .ok d' => process_chunk d' ys := by
  intro xs
  induction xs with
  | nil => intro ys d; rfl
  | cons x xs ih =>
    intro ys d
    rw [List.cons_append, process_chunk_cons, process_chunk_cons d x xs]
    rcases hpl : processLine d x with e | d₁
    · rfl
    · exact ih ys d₁

theorem runWorkerAux_flatten :
    ∀ (bs : List (List Str)) (d : ThreadData),
      runWorkerAux d bs = process_chunk d bs.flatten := by
  intro bs
  induction bs with
  | nil => intro d; rfl
  | cons b bs ih =>
    intro d
    rw [runWorkerAux_cons, List.flatten_cons, process_chunk_append]
    rcases hpc : process_chunk d b with e | d₁
    · rfl
    · exact ih d₁

theorem runWorker_flatten (bs : List (List Str)) :
    runWorker bs = process_chunk emptyData bs.flatten :=
  runWorkerAux_flatten bs emptyData

/-! ### The spawn-and-join of identical workers -/

theorem workerResults_ok {bs : List (List Str)} {d : ThreadData}
    (h : runWorker bs = .ok d) :
    ∀ n, workerResults bs n = .ok (List.replicate n d) := by
  intro n
  induction n with
  | zero => rfl
  | succ n ih =>
    rw [workerResults_succ, h, ih]
    rfl

theorem workerResults_err {bs : List (List Str)} {e : Str}
    (h : runWorker bs = .error e) :
    ∀ n, 1 ≤ n → workerResults bs n = .error e := by
  intro n hn
  cases n with
  | zero => exact absurd hn (by simp)
  | succ n => rw [workerResults_succ, h]

theorem workerResults_ok_inv {bs : List (List Str)} :
    ∀ (n : ℕ) (ds : List ThreadData), workerResults bs n = .ok ds →
      (n = 0 ∧ ds = []) ∨ ∃ d, runWorker bs = .ok d ∧ ds = List.replicate n d := by
  intro n
  induction n with
  | zero =>
    intro ds h
    left
    exact ⟨rfl, by cases h; rfl⟩
  | succ n ih =>
    intro ds h
    rcases hrw : runWorker bs with e | d
    · rw [workerResults_err hrw (n + 1) (by omega)] at h
      cases h
    · rw [workerResults_ok hrw (n + 1)] at h
      cases h
      right
      exact ⟨d, rfl, rfl⟩

/-! ### The batching loop -/

theorem readBatches_flatten (c : ℕ) :
    ∀ (stream buf : List Str), (readBatches c buf stream).flatten = buf ++ stream := by
  intro stream
  induction stream with
  | nil =>
    intro buf
    cases buf with
    | nil => rfl
    | cons x xs => simp [readBatches]
  | cons line rest ih =>
    intro buf
    simp only [readBatches]
    split
    · rw [List.flatten_cons, ih []]
      simp
    · rw [ih (buf ++ [line])]
      simp

theorem readBatches_mem (c : ℕ) :
    ∀ (stream buf : List Str), buf.length < c →
      ∀ b ∈ readBatches c buf stream, b ≠ [] ∧ b.length ≤ c := by
  intro stream
  induction stream with
  | nil =>
    intro buf hbuf b hb
    cases buf with
    | nil => simp [readBatches] at hb
    | cons x xs =>
      simp only [readBatches, List.isEmpty_cons] at hb
      rcases (by simpa using hb : b = x :: xs) with rfl
      exact ⟨by simp, le_of_lt hbuf⟩
  | cons line rest ih =>
    intro buf hbuf b hb
    simp only [readBatches] at hb
    split at hb
    · rcases List.mem_cons.mp hb with rfl | hb'
      · refine ⟨by simp, ?_⟩
        have : (buf ++ [line]).length = buf.length + 1 := by simp
        omega
      · exact ih [] (by simpa using Nat.lt_of_lt_of_le (Nat.zero_lt_of_lt hbuf) le_rfl) b hb'
    · have hlen : (buf ++ [line]).length < c := by
        have : ¬ c ≤ (buf ++ [line]).length := by assumption
        omega
      exact ih (buf ++ [line]) hlen b hb

theorem readBatches_dropLast (c : ℕ) :
    ∀ (stream buf : List Str), buf.length < c →
      ∀ b ∈ (readBatches c buf stream).dropLast, b.length = c := by
  intro stream
  induction stream with
  | nil =>
    intro buf hbuf b hb
    cases buf with
    | nil => simp [readBatches] at hb
    | cons x xs => simp [readBatches] at hb
  | cons line rest ih =>
    intro buf hbuf b hb
    simp only [readBatches] at hb
    split at hb
    · have hfull : (buf ++ [line]).length = c := by
        have : c ≤ (buf ++ [line]).length := by assumption
        have : (buf ++ [line]).length = buf.length + 1 := by simp
        omega
      cases hrb : readBatches c [] rest with
      | nil =>
        rw [hrb] at hb
        simp at hb
      | cons r rs =>
        rw [hrb] at hb
        have hdl : ((buf ++ [line]) :: r :: rs).dropLast =
            (buf ++ [line]) :: (r :: rs).dropLast := rfl
        rw [hdl] at hb
        rcases List.mem_cons.mp hb with rfl | hb'
        · exact hfull
        · have hcpos : ([] : List Str).length < c := by
            simpa using lt_of_le_of_lt (Nat.zero_le _) hbuf
          have := ih [] hcpos b
          rw [hrb] at this
          exact this hb'
    · have hlen : (buf ++ [line]).length < c := by
        have : ¬ c ≤ (buf ++ [line]).length := by assumption
        omega
      exact ih (buf ++ [line]) hlen b hb

theorem batches_flatten (c : ℕ) (lines : List Str) :
    (batches c lines).flatten = lines := by
  rw [batches, readBatches_flatten]
  rfl

/-! ### The reducer's per-key fold over the workers -/

theorem mergeKeyAux_cons (k : Str) (acc : Stat) (d : ThreadData) (ds : List ThreadData) :
    mergeKeyAux k acc (d :: ds) = mergeKeyAux k (mergeStep acc (lookupStat d.stat k)) ds := rfl

theorem mergeKeyAux_absent {k : Str} {d : ThreadData}
    (h : lookupStat d.stat k = none) :
    ∀ (n : ℕ) (acc : Stat), mergeKeyAux k acc (List.replicate n d) = acc := by
  intro n
  induction n with
  | zero => intro acc; rfl
  | succ n ih =>
    intro acc
    rw [List.replicate_succ, mergeKeyAux_cons, h]
    exact ih acc

theorem mergeStep_some (acc s : Stat) :
    mergeStep acc (some s) =
      { min := if F64.blt s.min acc.min then s.min else acc.min
        max := if F64.blt acc.max s.max then s.max else acc.max
        sum := F64.add acc.sum s.sum
        count := acc.count + s.count } := rfl

theorem mergeStep_spec {st : Stat} (hst : statWf st) (acc : Stat) (hacc : statWf acc) :
    statWf (mergeStep acc (some st)) ∧
    (mergeStep acc (some st)).sum.val = acc.sum.val + st.sum.val ∧
    (mergeStep acc (some st)).count = acc.count + st.count ∧
    (mergeStep acc (some st)).min.val ≤ acc.min.val ∧
    (mergeStep acc (some st)).min.val ≤ st.min.val ∧
    acc.max.val ≤ (mergeStep acc (some st)).max.val ∧
    st.max.val ≤ (mergeStep acc (some st)).max.val := by
  obtain ⟨hsmin, hsmax, hssum⟩ := hst
  obtain ⟨ham, hax, has⟩ := hacc
  have hminw : (mergeStep acc (some st)).min.wf := by
    show (if F64.blt st.min acc.min then st.min else acc.min).wf
    split
    · exact hsmin
    · exact ham
  have hmaxw : (mergeStep acc (some st)).max.wf := by
    show (if F64.blt acc.max st.max then st.max else acc.max).wf
    split
    · exact hsmax
    · exact hax
  have hsumw : (mergeStep acc (some st)).sum.wf := F64.add_wf has hssum
  have hminle : (mergeStep acc (some st)).min.val ≤ acc.min.val ∧
      (mergeStep acc (some st)).min.val ≤ st.min.val := by
    show (if F64.blt st.min acc.min then st.min else acc.min).val ≤ _ ∧
      (if F64.blt st.min acc.min then st.min else acc.min).val ≤ _
    by_cases hb : F64.blt st.min acc.min = true
    · rw [if_pos hb]
      exact ⟨le_of_lt ((F64.blt_iff hsmin ham).mp hb), le_refl _⟩
    · rw [if_neg hb]
      have : ¬(st.min.val < acc.min.val) := fun hc => hb ((F64.blt_iff hsmin ham).mpr hc)
      exact ⟨le_refl _, not_lt.mp this⟩
  have hmaxge : acc.max.val ≤ (mergeStep acc (some st)).max.val ∧
      st.max.val ≤ (mergeStep acc (some st)).max.val := by
    show _ ≤ (if F64.blt acc.max st.max then st.max else acc.max).val ∧
      _ ≤ (if F64.blt acc.max st.max then st.max else acc.max).val
    by_cases hb : F64.blt acc.max st.max = true
    · rw [if_pos hb]
      exact ⟨le_of_lt ((F64.blt_iff hax hsmax).mp hb), le_refl _⟩
    · rw [if_neg hb]
      have : ¬(acc.max.val < st.max.val) := fun hc => hb ((F64.blt_iff hax hsmax).mpr hc)
      exact ⟨le_refl _, not_lt.mp this⟩
  exact ⟨⟨hminw, hmaxw, hsumw⟩, F64.val_add has hssum, rfl,
    hminle.1, hminle.2, hmaxge.1, hmaxge.2⟩

theorem mergeKeyAux_replicate {k : Str} {d : ThreadData} {st : Stat}
    (hk : lookupStat d.stat k = some st) (hst : statWf st) :
    ∀ (n : ℕ) (acc : Stat), statWf acc →
      statWf (mergeKeyAux k acc (List.replicate n d)) ∧
      (mergeKeyAux k acc (List.replicate n d)).sum.val = acc.sum.val + n * st.sum.val ∧
      (mergeKeyAux k acc (List.replicate n d)).count = acc.count + n * st.count ∧
      (mergeKeyAux k acc (List.replicate n d)).min.val ≤ acc.min.val ∧
      acc.max.val ≤ (mergeKeyAux k acc (List.replicate n d)).max.val ∧
      (1 ≤ n → (mergeKeyAux k acc (List.replicate n d)).min.val ≤ st.min.val ∧
        st.max.val ≤ (mergeKeyAux k acc (List.replicate n d)).max.val) := by
  intro n
  induction n with
  | zero =>
    intro acc hacc
    have h0 : mergeKeyAux k acc (List.replicate 0 d) = acc := rfl
    rw [h0]
    refine ⟨hacc, by norm_num, by norm_num, le_refl _, le_refl _, ?_⟩
    intro h
    exact absurd h (by norm_num)
  | succ n ih =>
    intro acc hacc
    obtain ⟨hwf₁, hsum₁, hcount₁, hma, hms, hxa, hxs⟩ := mergeStep_spec hst acc hacc
    rw [List.replicate_succ, mergeKeyAux_cons, hk]
    obtain ⟨hwf', hsum', hcount', hmin', hmax', hboth'⟩ := ih (mergeStep acc (some st)) hwf₁
    refine ⟨hwf', ?_, ?_, le_trans hmin' hma, le_trans hxa hmax', ?_⟩
    · rw [hsum', hsum₁]
      push_cast
      ring
    · rw [hcount', hcount₁]
      push_cast
      ring
    · intro _
      exact ⟨le_trans hmin' hms, le_trans hxs hmax'⟩

/-! ### Replicated observations, and the union of worker key sets -/

theorem val_sum_flatten_replicate (vs : List F64) :
    ∀ n : ℕ, (((List.replicate n vs).flatten).map F64.val).sum =
      n * ((vs.map F64.val).sum) := by
  intro n
  induction n with
  | zero => simp
  | succ n ih =>
    rw [List.replicate_succ, List.flatten_cons, List.map_append, List.sum_append, ih]
    push_cast
    ring

theorem length_flatten_replicate (vs : List F64) :
    ∀ n : ℕ, ((List.replicate n vs).flatten).length = n * vs.length := by
  intro n
  induction n with
  | zero => simp
  | succ n ih =>
    rw [List.replicate_succ, List.flatten_cons, List.length_append, ih]
    ring

theorem mem_flatten_replicate {vs : List F64} {v : F64} {n : ℕ}
    (h : v ∈ (List.replicate n vs).flatten) : v ∈ vs := by
  obtain ⟨l, hl, hv⟩ := List.mem_flatten.mp h
  rcases (List.mem_replicate.mp hl).2 with rfl
  exact hv

theorem mem_allKeys_replicate {d : ThreadData} {k : Str} {n : ℕ}
    (h : k ∈ allKeys (List.replicate n d)) :
    n ≠ 0 ∧ k ∈ d.stat.map Prod.fst := by
  rw [allKeys, List.mem_dedup] at h
  obtain ⟨a, ha, hk⟩ := List.mem_flatMap.mp h
  obtain ⟨hn, rfl⟩ := List.mem_replicate.mp ha
  exact ⟨hn, hk⟩

theorem allKeys_replicate_of_mem {d : ThreadData} {k : Str} {n : ℕ}
    (hn : n ≠ 0) (hk : k ∈ d.stat.map Prod.fst) :
    k ∈ allKeys (List.replicate n d) := by
  rw [allKeys, List.mem_dedup]
  exact List.mem_flatMap.mpr ⟨d, List.mem_replicate.mpr ⟨hn, rfl⟩, hk⟩

theorem allKeys_replicate_empty (n : ℕ) :
    allKeys (List.replicate n emptyData) = [] := by
  rw [allKeys]
  have : (List.replicate n emptyData).flatMap (fun d => d.stat.map Prod.fst) = [] := by
    induction n with
    | zero => rfl
    | succ n ih => rw [List.replicate_succ, List.flatMap_cons, ih]; rfl
  rw [this]
  rfl

/-- Whatever the value, the one-decimal format always ends in a point
followed by exactly one digit. -/
theorem fmt1_shape (q : F64) :
    ∃ s : Str, ∃ dgt : ℕ, dgt < 10 ∧ fmt1 q = s ++ ['.', Char.ofNat (48 + dgt)] := by
  refine ⟨(if roundDecis q < 0 then ['-'] else []) ++ natToStr ((roundDecis q).natAbs / 10),
    (roundDecis q).natAbs % 10, Nat.mod_lt _ (by norm_num), ?_⟩
  show fmt1n (roundDecis q) = _
  unfold fmt1n
  simp [List.append_assoc]

/-! ### Claim theorems -/

/-- C1: the spec's scenario claims the output contains an Oslo entry with
min, mean and max all equal to -5.0 and a Tokyo entry with min 10.0, mean
15.0, max 20.0.  Evaluating the pipeline on the three scenario lines with
batch size 2 and 2 workers shows the code prints `Processed 3 lines total`
as claimed, but the merged line reports Oslo as min -5.0, mean -5.0, max 0.0
and Tokyo as min 0.0, mean 15.0, max 20.0: the reducer folds into a
`Stat::default()` accumulator whose min and max start at `0.0`, so a key whose
values are all positive reports min `0.0` and one whose values are all
negative reports max `0.0`. -/
theorem c1_scenario_eval :
    mainRun (some scenarioLines) 2 2 =
      ⟨["Processed 3 lines total".data,
        [Char.ofNat 123] ++ "Oslo=-5.0/-5.0/0.0, Tokyo=0.0/15.0/20.0".data ++ [Char.ofNat 125],
        "File processed successfully".data], []⟩ ∧
    "Processed 3 lines total".data ∈ (mainRun (some scenarioLines) 2 2).stdoutLines := by
  constructor
  · decide
  · decide

/-- C3: the claim says the merged count for a key equals the number of
well-formed input lines with that key, independent of the number of workers.
With the broadcast channel every worker consumes every batch, so for the
single line `Tokyo;10.0` and 2 workers the merged count is 2, not 1. -/
theorem c3_broadcast_double_count :
    (observedValues "Tokyo".data ["Tokyo;10.0".data]).length = 1 ∧
    workerResults (batches 1 ["Tokyo;10.0".data]) 2 =
      .ok (List.replicate 2 ⟨[("Tokyo".data, ⟨⟨100, 10⟩, ⟨100, 10⟩, ⟨100, 10⟩, 1⟩)]⟩) ∧
    (mergeKey (List.replicate 2 ⟨[("Tokyo".data, ⟨⟨100, 10⟩, ⟨100, 10⟩, ⟨100, 10⟩, 1⟩)]⟩)
        "Tokyo".data).count = 2 := by
  refine ⟨by decide, by decide, by decide⟩

/-- C4: the claim says every subscribed worker receives every published batch
and none is dropped even for a slow worker.  The broadcast channel of
capacity 16 overwrites the oldest unread value once a receiver lags by more
than 16, and the worker loop exits on the first `Lagged` error, so a worker
first polled after 17 batches were published processes none of them — in
particular batch 0, which was published (it is among the 17), never reaches
that worker. -/
theorem c4_lagged_batch_lost :
    channelCapacity < 17 ∧
    slowWorkerBatches channelCapacity 17 = [] ∧
    0 ∉ slowWorkerBatches channelCapacity 17 ∧
    0 ∈ List.range 17 := by
  refine ⟨by decide, by decide, by decide, by decide⟩

/-- C5: a line that does not split into exactly two fields is silently
skipped, leaving the aggregate unchanged and raising no error; a line whose
second field (after trimming) fails to parse makes `process_chunk` return the
parse error, and any worker error propagates to a failure of the whole run. -/
theorem c5_line_error_asymmetry (d : ThreadData) (line : Str) :
    ((splitSemi line).length ≠ 2 → processLine d line = .ok d) ∧
    (∀ city valStr, splitSemi line = [city, valStr] →
        parseF64 (trimStr valStr) = none →
        processLine d line = .error "invalid float literal".data) ∧
    (∀ (lines : List Str) (c n : ℕ) (e : Str), 1 ≤ n →
        runWorker (batches c lines) = .error e →
        read_file_in_chunks (some lines) c n = .error (RunError.workerPanic e)) := by
  refine ⟨fun h => processLine_not2 d line h, ?_, ?_⟩
  · intro city valStr hsp hp
    exact processLine_parse_none d hsp hp
  · intro lines c n e hn hrw
    show (match workerResults (batches c lines) n with
      | .error e => (.error (.workerPanic e) : Except RunError (List Str))
      | .ok ds => .ok [countLine lines.length, reportLine ds]) = _
    rw [workerResults_err hrw n hn]

theorem c5_line_error_asymmetry_witness :
    processLine emptyData "malformed".data = .ok emptyData ∧
    processLine emptyData "Paris;abc".data = .error "invalid float literal".data ∧
    read_file_in_chunks (some ["Paris;abc".data]) 1 1 =
      .error (RunError.workerPanic "invalid float literal".data) :=
  ⟨(c5_line_error_asymmetry emptyData "malformed".data).1 (by decide),
   (c5_line_error_asymmetry emptyData "Paris;abc".data).2.1 "Paris".data "abc".data
     (by decide) (by decide),
   (c5_line_error_asymmetry emptyData "Paris;abc".data).2.2 ["Paris;abc".data] 1 1
     "invalid float literal".data (by decide) (by decide)⟩

/-- C6: on any failure (open failure or fatal worker error) the program
writes nothing to stdout — no report lines, no partial statistics — and
exactly one message to stderr; on success it prints the report followed by
the confirmation line and nothing to stderr. -/
theorem c6_failure_output (openResult : Option (List Str)) (c n : ℕ) :
    (∀ e, read_file_in_chunks openResult c n = .error e →
        (mainRun openResult c n).stdoutLines = [] ∧
        ∃ m, (mainRun openResult c n).stderrLines = [m]) ∧
    (∀ out, read_file_in_chunks openResult c n = .ok out →
        (mainRun openResult c n).stdoutLines =
          out ++ ["File processed successfully".data] ∧
        (mainRun openResult c n).stderrLines = []) := by
  constructor
  · intro e he
    unfold mainRun
    rw [he]
    cases e with
    | openFailed => exact ⟨rfl, ⟨_, rfl⟩⟩
    | workerPanic msg => exact ⟨rfl, ⟨_, rfl⟩⟩
  · intro out hout
    unfold mainRun
    rw [hout]
    exact ⟨rfl, rfl⟩

theorem c6_failure_output_witness :
    read_file_in_chunks (none : Option (List Str)) 1000 20 = .error RunError.openFailed ∧
    ((mainRun (none : Option (List Str)) 1000 20).stdoutLines = [] ∧
      ∃ m, (mainRun (none : Option (List Str)) 1000 20).stderrLines = [m]) :=
  ⟨rfl, (c6_failure_output (none : Option (List Str)) 1000 20).1 RunError.openFailed rfl⟩

/-- C8: on an empty input file the run succeeds, prints
`Processed 0 lines total` and the empty merged result (the two braces with
nothing between them), followed by the confirmation line, for every batch
size and worker count. -/
theorem c8_empty_input (c n : ℕ) :
    mainRun (some []) c n =
      ⟨["Processed 0 lines total".data,
        [Char.ofNat 123] ++ [Char.ofNat 125],
        "File processed successfully".data], []⟩ := by
  have hb : batches c [] = [] := rfl
  have hw : workerResults ([] : List (List Str)) n = .ok (List.replicate n emptyData) :=
    workerResults_ok (show runWorker ([] : List (List Str)) = .ok emptyData from rfl) n
  have hrl : reportLine (List.replicate n emptyData) =
      [Char.ofNat 123] ++ [Char.ofNat 125] := by
    unfold reportLine mergedResult
    rw [allKeys_replicate_empty]
    rfl
  have hcl : countLine ([] : List Str).length = "Processed 0 lines total".data := by decide
  have hr : read_file_in_chunks (some []) c n =
      .ok ["Processed 0 lines total".data, [Char.ofNat 123] ++ [Char.ofNat 125]] := by
    show (match workerResults (batches c []) n with
      | .error e => (.error (.workerPanic e) : Except RunError (List Str))
      | .ok ds => .ok [countLine ([] : List Str).length, reportLine ds]) = _
    rw [hb, hw]
    show (.ok [countLine ([] : List Str).length, reportLine (List.replicate n emptyData)] :
      Except RunError (List Str)) = _
    rw [hcl, hrl]
  unfold mainRun
  rw [hr]
  rfl

/-- C7: for a positive chunk size, the published batches concatenate back to
the input in order, every batch except possibly the last has exactly the
chunk size (a batch is published exactly when the buffer reaches it), no
batch is empty (an empty remaining buffer is not published), every batch is
at most the chunk size, and when the input length is not a multiple of the
chunk size the final batch — the remaining buffer published at exhaustion —
is strictly smaller than the chunk size.  The batch list being finite and
consumed to its end by `runWorkerAux` models the channel closure after the
final batch. -/
theorem c7_batching_spec (c : ℕ) (lines : List Str) (hc : 1 ≤ c) :
    (batches c lines).flatten = lines ∧
    (∀ b ∈ (batches c lines).dropLast, b.length = c) ∧
    (∀ b ∈ batches c lines, b ≠ [] ∧ b.length ≤ c) ∧
    (¬ c ∣ lines.length → ∀ b, (batches c lines).getLast? = some b → b.length < c) := by
  have h0 : ([] : List Str).length < c := by simpa using hc
  have hfl : (batches c lines).flatten = lines := batches_flatten c lines
  have hdl : ∀ b ∈ (batches c lines).dropLast, b.length = c :=
    readBatches_dropLast c lines [] h0
  have hmem : ∀ b ∈ batches c lines, b ≠ [] ∧ b.length ≤ c :=
    readBatches_mem c lines [] h0
  refine ⟨hfl, hdl, hmem, ?_⟩
  intro hnd b hlast
  have hne : batches c lines ≠ [] := by
    intro hnil
    rw [hnil] at hlast
    cases hlast
  have hb : b = (batches c lines).getLast hne := by
    have := List.getLast?_eq_getLast (batches c lines) hne
    rw [hlast] at this
    exact (Option.some.injEq _ _).mp this
  have hdecomp : (batches c lines).dropLast ++ [b] = batches c lines := by
    rw [hb]
    exact List.dropLast_append_getLast hne
  have hmap : ((batches c lines).dropLast.map List.length) =
      List.replicate (batches c lines).dropLast.length c := by
    have := List.eq_replicate_of_mem (a := c)
      (l := (batches c lines).dropLast.map List.length) ?_
    · rw [this, List.length_map]
    · intro x hx
      obtain ⟨bb, hbb, rfl⟩ := List.mem_map.mp hx
      exact hdl bb hbb
  have hlen : lines.length = (batches c lines).dropLast.length * c + b.length := by
    conv_lhs => rw [← hfl, ← hdecomp]
    rw [List.flatten_append, List.length_append, List.length_flatten, hmap,
      List.sum_replicate, smul_eq_mul]
    simp
  have hbmem : b ∈ batches c lines := by
    rw [← hdecomp]
    exact List.mem_append_right _ (List.mem_cons_self _ _)
  have hble : b.length ≤ c := (hmem b hbmem).2
  by_contra hcon
  push_neg at hcon
  have hbc : b.length = c := le_antisymm hble hcon
  apply hnd
  rw [hlen, hbc]
  exact ⟨(batches c lines).dropLast.length + 1, by ring⟩

theorem c7_batching_spec_witness :
    (1 ≤ 2) ∧
    ((batches 2 ["a;1".data, "b;2".data, "c;3".data]).flatten =
        ["a;1".data, "b;2".data, "c;3".data] ∧
      (∀ b ∈ (batches 2 ["a;1".data, "b;2".data, "c;3".data]).dropLast, b.length = 2) ∧
      (∀ b ∈ batches 2 ["a;1".data, "b;2".data, "c;3".data], b ≠ [] ∧ b.length ≤ 2) ∧
      (¬ 2 ∣ (["a;1".data, "b;2".data, "c;3".data] : List Str).length →
        ∀ b, (batches 2 ["a;1".data, "b;2".data, "c;3".data]).getLast? = some b →
          b.length < 2)) :=
  ⟨by decide, c7_batching_spec 2 ["a;1".data, "b;2".data, "c;3".data] (by decide)⟩

/-- C2: every `Stat` the pipeline produces is a sound summary.  A worker's
per-key `Stat` after folding its records bounds every value observed for that
key from below by its min and from above by its max, and carries their exact
sum and count; the fresh accumulator the reducer builds for a key (before
dividing for the mean) does the same with respect to the observations that
actually fed it — one copy of the key's observation list per worker, since
the broadcast delivers all batches to all workers. -/
theorem c2_stat_invariant (lines : List Str) (c n : ℕ) (ds : List ThreadData) (k : Str)
    (hws : workerResults (batches c lines) n = .ok ds) :
    (∀ d ∈ ds, ∀ st, lookupStat d.stat k = some st → 1 ≤ st.count →
        statAbsorbs st (observedValues k lines)) ∧
    (1 ≤ (mergeKey ds k).count →
        statAbsorbs (mergeKey ds k) ((List.replicate n (observedValues k lines)).flatten)) := by
  rcases workerResults_ok_inv n ds hws with ⟨rfl, rfl⟩ | ⟨d, hrw, rfl⟩
  · constructor
    · intro d hd
      simp at hd
    · intro hcnt
      have h0 : (mergeKey ([] : List ThreadData) k).count = 0 := rfl
      omega
  · have hpc : process_chunk emptyData lines = .ok d := by
      have hfl := runWorker_flatten (batches c lines)
      rw [batches_flatten] at hfl
      rw [← hfl]
      exact hrw
    have hworker : ∀ st, lookupStat d.stat k = some st →
        statWf st ∧ statAbsorbs st (observedValues k lines) ∧ 1 ≤ st.count := by
      intro st hst
      have htrack := process_chunk_lookup lines emptyData d hpc k
      rw [hst] at htrack
      have hfold : foldStat none (observedValues k lines) = some st := htrack.symm
      exact foldStat_none_spec (observedValues_wf k lines) hfold
    constructor
    · intro d' hd' st hst _
      rcases List.eq_of_mem_replicate hd' with rfl
      exact (hworker st hst).2.1
    · intro hcnt
      rcases hl : lookupStat d.stat k with _ | st
      · have habs : mergeKey (List.replicate n d) k = Stat.dflt :=
          mergeKeyAux_absent hl n Stat.dflt
        rw [habs] at hcnt
        exact absurd hcnt (by decide)
      · obtain ⟨hwf, habs, hc1⟩ := hworker st hl
        obtain ⟨hbound, hsum, hcount⟩ := habs
        obtain ⟨hMwf, hMsum, hMcount, hMmin, hMmax, hMboth⟩ :=
          mergeKeyAux_replicate hl hwf n Stat.dflt ⟨F64.zero_wf, F64.zero_wf, F64.zero_wf⟩
        have hMK : mergeKey (List.replicate n d) k =
            mergeKeyAux k Stat.dflt (List.replicate n d) := rfl
        have hn1 : 1 ≤ n := by
          by_contra hn0
          have hzero : n = 0 := by omega
          subst hzero
          have h0 : mergeKey (List.replicate 0 d) k = Stat.dflt := rfl
          rw [h0] at hcnt
          exact absurd hcnt (by decide)
        obtain ⟨hMmins, hMmaxs⟩ := hMboth hn1
        refine ⟨?_, ?_, ?_⟩
        · intro v hv
          have hv' : v ∈ observedValues k lines := mem_flatten_replicate hv
          obtain ⟨h1, h2⟩ := hbound v hv'
          rw [hMK]
          exact ⟨le_trans hMmins h1, le_trans h2 hMmaxs⟩
        · have hds : Stat.dflt.sum.val = 0 := F64.zero_val
          rw [val_sum_flatten_replicate, hMK, hMsum, hsum, hds]
          ring
        · rw [length_flatten_replicate, hMK, hMcount, hcount]
          have hdc : Stat.dflt.count = 0 := rfl
          rw [hdc]
          push_cast
          ring

theorem c2_stat_invariant_witness :
    workerResults (batches 1 ["a;1.0".data]) 1 =
      .ok [⟨[("a".data, ⟨⟨10, 10⟩, ⟨10, 10⟩, ⟨10, 10⟩, 1⟩)]⟩] ∧
    ((∀ d ∈ ([⟨[("a".data, ⟨⟨10, 10⟩, ⟨10, 10⟩, ⟨10, 10⟩, 1⟩)]⟩] : List ThreadData),
        ∀ st, lookupStat d.stat "a".data = some st → 1 ≤ st.count →
          statAbsorbs st (observedValues "a".data ["a;1.0".data])) ∧
      (1 ≤ (mergeKey ([⟨[("a".data, ⟨⟨10, 10⟩, ⟨10, 10⟩, ⟨10, 10⟩, 1⟩)]⟩] : List ThreadData)
          "a".data).count →
        statAbsorbs
          (mergeKey ([⟨[("a".data, ⟨⟨10, 10⟩, ⟨10, 10⟩, ⟨10, 10⟩, 1⟩)]⟩] : List ThreadData)
            "a".data)
          ((List.replicate 1 (observedValues "a".data ["a;1.0".data])).flatten))) :=
  ⟨by decide, c2_stat_invariant ["a;1.0".data] 1 1
    [⟨[("a".data, ⟨⟨10, 10⟩, ⟨10, 10⟩, ⟨10, 10⟩, 1⟩)]⟩] "a".data (by decide)⟩

/-- C9: on any successful run, the second stdout line is the merged report:
keys in sorted lexicographic order joined by a comma and a space, each entry
`key=min/mean/max` with each number printed to exactly one decimal digit, and
each key's mean obtained by a single division of the merged sum by the merged
count at merge time — worker `Stat`s carry only sum and count, never a
running mean. -/
theorem c9_report_format (lines : List Str) (c n : ℕ) (out : List Str)
    (h : read_file_in_chunks (some lines) c n = .ok out) :
    ∃ ds, workerResults (batches c lines) n = .ok ds ∧
      out = [countLine lines.length, reportLine ds] ∧
      List.Sorted (fun a b : Str => strLe a b = true) (sortKeys (allKeys ds)) ∧
      reportLine ds =
        [Char.ofNat 123] ++
          strJoin ", ".data ((sortKeys (allKeys ds)).map (fun kk =>
            kk ++ "=".data ++ StatResult.fmtDisplay
              ⟨(mergeKey ds kk).min, (mergeKey ds kk).max,
                F64.divInt (mergeKey ds kk).sum (mergeKey ds kk).count⟩)) ++
          [Char.ofNat 125] ∧
      (∀ r : StatResult, StatResult.fmtDisplay r =
        fmt1 r.min ++ "/".data ++ fmt1 r.mean ++ "/".data ++ fmt1 r.max) ∧
      (∀ kk, 0 ≤ (mergeKey ds kk).count →
        (F64.divInt (mergeKey ds kk).sum (mergeKey ds kk).count).val =
          (mergeKey ds kk).sum.val / ((mergeKey ds kk).count : ℚ)) ∧
      (∀ q : F64, ∃ s : Str, ∃ dgt : ℕ, dgt < 10 ∧
        fmt1 q = s ++ ['.', Char.ofNat (48 + dgt)]) := by
  rcases hws : workerResults (batches c lines) n with e | ds
  · exfalso
    have : read_file_in_chunks (some lines) c n = .error (.workerPanic e) := by
      show (match workerResults (batches c lines) n with
        | .error e => (.error (.workerPanic e) : Except RunError (List Str))
        | .ok ds => .ok [countLine lines.length, reportLine ds]) = _
      rw [hws]
    rw [this] at h
    cases h
  · have hout : out = [countLine lines.length, reportLine ds] := by
      have : read_file_in_chunks (some lines) c n =
          .ok [countLine lines.length, reportLine ds] := by
        show (match workerResults (batches c lines) n with
          | .error e => (.error (.workerPanic e) : Except RunError (List Str))
          | .ok ds => .ok [countLine lines.length, reportLine ds]) = _
        rw [hws]
      rw [this] at h
      exact (Except.ok.inj h).symm
    refine ⟨ds, rfl, hout, sorted_sortKeys _, ?_, fun r => rfl, ?_, fmt1_shape⟩
    · unfold reportLine mergedResult
      rw [List.map_map]
      rfl
    · intro kk hkk
      rw [F64.divInt_val]
      have h2 : (((mergeKey ds kk).count.toNat : ℕ) : ℚ) = ((mergeKey ds kk).count : ℚ) := by
        exact_mod_cast Int.toNat_of_nonneg hkk
      rw [h2]

theorem c9_report_format_witness :
    read_file_in_chunks (some ["b;2.0".data]) 1 1 =
      .ok [countLine 1,
        reportLine [⟨[("b".data, ⟨⟨20, 10⟩, ⟨20, 10⟩, ⟨20, 10⟩, 1⟩)]⟩]] ∧
    (∃ ds, workerResults (batches 1 ["b;2.0".data]) 1 = .ok ds ∧
      [countLine 1, reportLine [⟨[("b".data, ⟨⟨20, 10⟩, ⟨20, 10⟩, ⟨20, 10⟩, 1⟩)]⟩]] =
        [countLine (["b;2.0".data] : List Str).length, reportLine ds] ∧
      List.Sorted (fun a b : Str => strLe a b = true) (sortKeys (allKeys ds)) ∧
      reportLine ds =
        [Char.ofNat 123] ++
          strJoin ", ".data ((sortKeys (allKeys ds)).map (fun kk =>
            kk ++ "=".data ++ StatResult.fmtDisplay
              ⟨(mergeKey ds kk).min, (mergeKey ds kk).max,
                F64.divInt (mergeKey ds kk).sum (mergeKey ds kk).count⟩)) ++
          [Char.ofNat 125] ∧
      (∀ r : StatResult, StatResult.fmtDisplay r =
        fmt1 r.min ++ "/".data ++ fmt1 r.mean ++ "/".data ++ fmt1 r.max) ∧
      (∀ kk, 0 ≤ (mergeKey ds kk).count →
        (F64.divInt (mergeKey ds kk).sum (mergeKey ds kk).count).val =
          (mergeKey ds kk).sum.val / ((mergeKey ds kk).count : ℚ)) ∧
      (∀ q : F64, ∃ s : Str, ∃ dgt : ℕ, dgt < 10 ∧
        fmt1 q = s ++ ['.', Char.ofNat (48 + dgt)])) :=
  ⟨by decide, c9_report_format ["b;2.0".data] 1 1
    [countLine 1, reportLine [⟨[("b".data, ⟨⟨20, 10⟩, ⟨20, 10⟩, ⟨20, 10⟩, 1⟩)]⟩]]
    (by decide)⟩

/-- C10: the merge-time division `sum / count` never sees a zero divisor:
a `Stat` is created with count 1, folding another value only increases the
count, and every key in the merged union was present in at least one
worker's aggregate, so the merged count is at least 1. -/
theorem c10_merge_divisor_pos (lines : List Str) (c n : ℕ) (ds : List ThreadData)
    (hws : workerResults (batches c lines) n = .ok ds) :
    (∀ v : F64, (Stat.new v).count = 1) ∧
    (∀ (st : Stat) (v : F64), st.count ≤ (statUpdate st v).count) ∧
    (∀ k ∈ allKeys ds, 1 ≤ (mergeKey ds k).count) := by
  refine ⟨fun v => rfl, ?_, ?_⟩
  · intro st v
    show st.count ≤ st.count + 1
    omega
  · intro k hk
    rcases workerResults_ok_inv n ds hws with ⟨rfl, rfl⟩ | ⟨d, hrw, rfl⟩
    · simp [allKeys] at hk
    · obtain ⟨hn0, hkd⟩ := mem_allKeys_replicate hk
      obtain ⟨st, hst⟩ := lookup_of_mem_keys k d.stat hkd
      have hpc : process_chunk emptyData lines = .ok d := by
        have hfl := runWorker_flatten (batches c lines)
        rw [batches_flatten] at hfl
        rw [← hfl]
        exact hrw
      have htrack := process_chunk_lookup lines emptyData d hpc k
      rw [hst] at htrack
      have hfold : foldStat none (observedValues k lines) = some st := htrack.symm
      obtain ⟨hwf, _, hc1⟩ := foldStat_none_spec (observedValues_wf k lines) hfold
      obtain ⟨_, _, hMcount, _, _, _⟩ :=
        mergeKeyAux_replicate hst hwf n Stat.dflt ⟨F64.zero_wf, F64.zero_wf, F64.zero_wf⟩
      show 1 ≤ (mergeKeyAux k Stat.dflt (List.replicate n d)).count
      rw [hMcount]
      have hdc : Stat.dflt.count = 0 := rfl
      rw [hdc]
      have hn1 : 1 ≤ (n : ℤ) := by exact_mod_cast Nat.one_le_iff_ne_zero.mpr hn0
      nlinarith

theorem c10_merge_divisor_pos_witness :
    workerResults (batches 1 ["a;1.0".data]) 1 =
      .ok [⟨[("a".data, ⟨⟨10, 10⟩, ⟨10, 10⟩, ⟨10, 10⟩, 1⟩)]⟩] ∧
    ((∀ v : F64, (Stat.new v).count = 1) ∧
      (∀ (st : Stat) (v : F64), st.count ≤ (statUpdate st v).count) ∧
      (∀ k ∈ allKeys ([⟨[("a".data, ⟨⟨10, 10⟩, ⟨10, 10⟩, ⟨10, 10⟩, 1⟩)]⟩] : List ThreadData),
        1 ≤ (mergeKey ([⟨[("a".data, ⟨⟨10, 10⟩, ⟨10, 10⟩, ⟨10, 10⟩, 1⟩)]⟩] : List ThreadData)
          k).count)) :=
  ⟨by decide, c10_merge_divisor_pos ["a;1.0".data] 1 1
    [⟨[("a".data, ⟨⟨10, 10⟩, ⟨10, 10⟩, ⟨10, 10⟩, 1⟩)]⟩] (by decide)⟩

-- Sanity checks on the concrete model.
example : splitSemi "Tokyo;10.0".data = ["Tokyo".data, "10.0".data] := by decide
example : splitSemi "malformed".data = ["malformed".data] := by decide
example : parseF64 "10.0".data = some ⟨100, 10⟩ := by decide
example : parseF64 "-5.0".data = some ⟨-50, 10⟩ := by decide
example : parseF64 "abc".data = none := by decide
example : trimStr " 3.5 ".data = "3.5".data := by decide
example :
    process_chunk emptyData ["Tokyo;10.0".data, "Tokyo;20.0".data] =
      .ok ⟨[("Tokyo".data, ⟨⟨100, 10⟩, ⟨200, 10⟩, ⟨3000, 100⟩, 2⟩)]⟩ := by decide
